import Mathlib

/-!
# Verification of `cherry-quick.mjs`

A shallow embedding of the commit-selection and command-generation logic of
`src/cherry-quick.mjs`, together with theorems settling the specification
claims about it.

Modelling conventions:
* JS strings are `List Char` (`Str`); string methods (`trim`, `slice`,
  `toLowerCase`, `includes`, `replaceAll`) are embedded as list functions.
  `toLowerCase` embeds the Unicode case mapping for the code points this
  development exercises: the ASCII range, plus U+212A and U+0130, whose
  lowercase forms contain word characters.
* JS numbers holding epoch milliseconds are `Int`.
* `new Date(t)`'s calendar accessors are embedded via the standard Gregorian
  `civil_from_days` algorithm; the process's local timezone is modelled as UTC
  (a nonzero offset would only shift every timestamp uniformly).
* The interactive prompt, clipboard and shell are external collaborators; the
  main flow `run` is parametrised by their answers (`World`) and records what
  would be printed, executed and prompted (`RunResult`).  A thrown JS error is
  the `Except.error` case.
* Display-only colorized label text (`ansi-colors`) is omitted from the choice
  model; no claim mentions it.
-/

namespace CherryQuick

/-- JS strings, modelled as lists of characters. -/
abbrev Str := List Char

/-- Whitespace removed by JS `String.prototype.trim` (the ASCII subset). -/
def isWs (c : Char) : Bool :=
  c = ' ' || c = '\t' || c = '\n' || c = '\r' || c = '\x0b' || c = '\x0c'

/-- `text.trim()`: strip leading and trailing whitespace. -/
def trimStr (l : Str) : Str :=
  ((l.dropWhile isWs).reverse.dropWhile isWs).reverse

/-- Lines 219–225: `truncate(text, length)` — texts longer than `length` are
cut to `length - 1` characters, trimmed, and suffixed with an ellipsis.
(The program only calls it with `length` = 80 and 20.) -/
def truncate (text : Str) (length : Nat) : Str :=
  if text.length > length then trimStr (text.take (length - 1)) ++ ['…'] else text

/-- Lines 200–203: `generatePullRequestTitleFromBranch` — every `'-'` whose
offset is not `branch.indexOf('-')` is replaced by a space. -/
def generatePullRequestTitleFromBranch (branch : Str) : Str :=
  let firstDashIndex := branch.findIdx? (· = '-')
  branch.mapIdx fun index c =>
    if c = '-' then (if firstDashIndex = some index then '-' else ' ') else c

/-! ## Calendar dates (JS `Date`) -/

def msPerDay : Int := 86400000

/-- The day number of an epoch-milliseconds timestamp (floor division). -/
def dayFromMillis (t : Int) : Int := Int.fdiv t msPerDay

/-- Proleptic-Gregorian (year, month, day) from a day number relative to
1970-01-01 (the `civil_from_days` algorithm used by JS `Date`).  All
intermediate quantities after the era split are nonnegative, so truncating
division agrees with floor division. -/
def civilFromDays (z0 : Int) : Int × Int × Int :=
  let z := z0 + 719468
  let era := Int.fdiv z 146097
  let doe := z - era * 146097
  let yoe := (doe - doe / 1460 + doe / 36524 - doe / 146096) / 365
  let y := yoe + era * 400
  let doy := doe - (365 * yoe + yoe / 4 - yoe / 100)
  let mp := (5 * doy + 2) / 153
  let d := doy - (153 * mp + 2) / 5 + 1
  let m := if mp < 10 then mp + 3 else mp - 9
  (if m ≤ 2 then y + 1 else y, m, d)

/-- `new Date(t).getDate()` — the day of the month (1..31). -/
def getDate (t : Int) : Int := (civilFromDays (dayFromMillis t)).2.2

/-- The full local calendar date (year, month, day) of a timestamp. -/
def calendarDate (t : Int) : Int × Int × Int := civilFromDays (dayFromMillis t)

/-! ## Search keys -/

/-- The regex class `\w` of JS (ASCII letters, digits, underscore). -/
def isWordChar (c : Char) : Bool :=
  ('a' ≤ c && c ≤ 'z') || ('A' ≤ c && c ≤ 'Z') || ('0' ≤ c && c ≤ '9') || c = '_'

/-- `String.prototype.toLowerCase` on one character.  A character may
lowercase to several characters, so the result is a string.  The Unicode case
mapping is embedded for the code points this development exercises: ASCII
`A`–`Z` map into `a`–`z`; U+212A KELVIN SIGN lowercases to `k`; U+0130 LATIN
CAPITAL LETTER I WITH DOT ABOVE lowercases to `i` followed by U+0307
(combining dot above); the remaining characters used here are unchanged. -/
def toLowerCharStr (c : Char) : Str :=
  if 'A' ≤ c && c ≤ 'Z' then [Char.ofNat (c.toNat + 32)]
  else if c = '\u212A' then ['k']
  else if c = '\u0130' then ['i', '\u0307']
  else [c]

def toLowerStr (l : Str) : Str := l.flatMap toLowerCharStr

/-- `hay.includes(sub)`: `sub` occurs contiguously inside `hay`. -/
def includesSub (hay sub : Str) : Bool := hay.tails.any fun t => sub.isPrefixOf t

/-! ## Commits and choices -/

/-- A fetched commit record (lines 186–196). -/
structure Commit where
  timestamp : Int
  hash : Str
  fullHash : Str
  author : Str
  message : Str
deriving Repr, DecidableEq

/-- Line 123: the normalized search key
`` `${hash} ${message} by ${author}`.replaceAll(/[^\w]/g, '').toLowerCase() ``. -/
def commitQuery (commit : Commit) : Str :=
  toLowerStr (((commit.hash ++ (' ' :: commit.message)) ++ (" by ".data ++ commit.author)).filter isWordChar)

/-- An entry of the interactive choice list.  `sepDate` is the timestamp whose
date the separator displays (`none` for the final bare separator). -/
inductive Choice where
  | separator (sepDate : Option Int)
  | commit (name : Str) (query : Str)
deriving Repr, DecidableEq

def Choice.isSep : Choice → Bool
  | .separator _ => true
  | .commit _ _ => false

/-- Lines 101–129: the choice list — for each commit (oldest first) a date
separator when `getDate()` changes (always for the first commit), then the
commit entry; and one final bare separator.  The separator shows
`formatDate(prevCommitDate || currCommitDate)`. -/
def choicesOf (commits : List Commit) : List Choice :=
  (commits.enum.flatMap fun p =>
    (match (if p.1 = 0 then none else commits[p.1 - 1]?) with
     | none => [Choice.separator (some p.2.timestamp)]
     | some prev =>
       if getDate p.2.timestamp ≠ getDate prev.timestamp then
         [Choice.separator (some prev.timestamp)]
       else []) ++
    [Choice.commit p.2.fullHash (commitQuery p.2)])
  ++ [Choice.separator none]

/-! ## The `suggest` filter -/

/-- Lines 91–94: the first filter's predicate — separators always pass; a
commit entry passes when its query contains the lowercased typed text. -/
def choiceMatches (typed : Str) (choice : Choice) : Bool :=
  match choice with
  | .separator _ => true
  | .commit _ query => includesSub query (toLowerStr typed)

/-- Lines 90–94: the first filter of `suggest`. -/
def suggestMatch (typed : Str) : List Choice → List Choice :=
  List.filter (choiceMatches typed)

/-- Lines 96–98: the body of the second filter's callback — a commit entry is
kept; a separator is kept only when the entry at the next index exists
(`choices[i + 1]`) and is not itself a separator. -/
def keepNext : Choice → Option Choice → Bool
  | .commit _ _, _ => true
  | .separator _, none => false
  | .separator _, some next => !next.isSep

/-- Lines 95–99: in the once-filtered list, a separator is dropped unless the
entry at the next index of that same list exists and is not a separator (the
JS callback reads `choices[i + 1]` of the array being filtered). -/
def suggestDrop (l : List Choice) : List Choice :=
  (l.enum.filter fun p => keepNext p.2 l[p.1 + 1]?).map Prod.snd

/-- Lines 89–100: the autocomplete `suggest` callback. -/
def suggest (typed : Str) (choices : List Choice) : List Choice :=
  suggestDrop (suggestMatch typed choices)

/-- A next-element-directed recursion equivalent to `suggestDrop` (proved in
`suggestDrop_eq_dropSepsRec`): a separator survives exactly when the next
entry of the list exists and is a commit entry. -/
def dropSepsRec : List Choice → List Choice
  | [] => []
  | .commit n q :: rest => .commit n q :: dropSepsRec rest
  | [.separator _] => []
  | .separator _ :: .separator d :: rest => dropSepsRec (.separator d :: rest)
  | .separator d :: .commit n q :: rest => .separator d :: dropSepsRec (.commit n q :: rest)

/-! ## Command generation -/

def cherryPickLine (c : Commit) : Str := "git cherry-pick ".data ++ c.fullHash

def switchLine (branch toBranch : Str) : Str :=
  ("git switch -c ".data ++ branch) ++ (" origin/".data ++ toBranch)

def pushLine (branch : Str) : Str := "git push -u origin ".data ++ branch

def prLine (branch toBranch : Str) : Str :=
  (("gh pr create -a @me -t \"".data ++ generatePullRequestTitleFromBranch branch) ++
    ("\" -B ".data ++ toBranch)) ++ ((" -H ".data ++ branch) ++ " -w".data)

/-- Line 137: `.sort((a, b) => a.timestamp - b.timestamp)` — a stable
ascending sort by timestamp. -/
def sortCommits (l : List Commit) : List Commit :=
  l.mergeSort fun a b => decide (a.timestamp ≤ b.timestamp)

def commandSep : Str := " && \\\n".data

/-- Lines 144–153: the lines of the generated command block. -/
def commandLines (cherryPickBranch : Option Str) (toBranch : Str) (commits : List Commit) : List Str :=
  (match cherryPickBranch with
   | some b => [switchLine b toBranch]
   | none => []) ++
  (commits.map cherryPickLine ++
   (match cherryPickBranch with
    | some b => [pushLine b, prLine b toBranch]
    | none => []))

/-- Lines 144–153: the generated command text, `join(' && \\\n').trim()`. -/
def command (cherryPickBranch : Option Str) (toBranch : Str) (commits : List Commit) : Str :=
  trimStr (List.intercalate commandSep (commandLines cherryPickBranch toBranch commits))

/-! ## Shell queries -/

/-- Line 175: `git cherry origin/${toBranch} origin/${fromBranch}`. -/
def cherryQuery (fromBranch toBranch : Str) : Str :=
  ("git cherry origin/".data ++ toBranch) ++ (" origin/".data ++ fromBranch)

/-- Line 184: the `git log` pretty format with the `:;:` delimiter. -/
def logFormat : Str := "--pretty=format:\"%at:;:%h:;:%H:;:%an:;:%s\"".data

/-- Line 184: the commit-log query. -/
def logQuery (fromBranch toBranch : Str) : Str :=
  (("git --no-pager log ".data ++ logFormat) ++ (" origin/".data ++ fromBranch)) ++
    (" --not origin/".data ++ toBranch)

/-! ## The main flow -/

/-- Lines 70–75: match each cherry-pickable full hash against the fetched
commit records, throwing on the first hash with no record. -/
def matchCommits (fullHashes : List Str) (commits : List Commit) : Except Str (List Commit) :=
  match fullHashes with
  | [] => .ok []
  | h :: rest =>
    match commits.find? (fun c => c.fullHash == h) with
    | none => .error ("Missing commit: ".data ++ h)
    | some c => (matchCommits rest commits).map (c :: ·)

structure Config where
  help : Bool
  fromBranch : Str
  toBranch : Str
  includeBranch : Option Str
  cherryPickBranch : Option Str

/-- The externally supplied data of one run: the parsed outputs of the git
queries and the user's interaction with the prompt (`none` = abort). -/
structure World where
  fromHashes : List Str
  commits : List Commit
  selection : Option (List Str)

/-- What a completed (non-throwing) run did. -/
structure RunResult where
  exitCode : Nat
  generated : Option Str
  clipboardPrompted : Bool
  executedShell : List Str
  infoMessage : Option Str
deriving Repr, DecidableEq

/-- Lines 65–68: the strings passed to `executeShellCommand` during a run. -/
def executedCommands (cfg : Config) : List Str :=
  cherryQuery cfg.fromBranch cfg.toBranch ::
    ((match cfg.includeBranch with
      | some ib => [cherryQuery cfg.fromBranch ib]
      | none => []) ++ [logQuery cfg.fromBranch cfg.toBranch])

def helpMessage : Str := "Quickly select commits to cherry-pick.".data
def noCommitsMessage : Str := "No commits to pick from".data
def abortMessage : Str := "Operation aborted by user".data
def nonePickedMessage : Str := "No commits were picked".data

/-- Lines 25–169: the main flow.  Selected hashes are looked up in the
pickable list (the prompt only ever returns names from that list), the chosen
commits are re-sorted by timestamp, and the command block is generated and
offered to the clipboard only on the non-empty path. -/
def run (cfg : Config) (w : World) : Except Str RunResult :=
  if cfg.help then .ok ⟨0, none, false, [], some helpMessage⟩
  else
    match matchCommits w.fromHashes w.commits with
    | .error e => .error e
    | .ok matched =>
      let pickable := matched.reverse
      if pickable.length = 0 then
        .ok ⟨0, none, false, executedCommands cfg, some noCommitsMessage⟩
      else
        match w.selection with
        | none => .ok ⟨0, none, false, executedCommands cfg, some abortMessage⟩
        | some sel =>
          let chosen := sortCommits (sel.filterMap fun h => pickable.find? fun c => c.fullHash == h)
          if chosen.length = 0 then
            .ok ⟨0, none, false, executedCommands cfg, some nonePickedMessage⟩
          else
            .ok ⟨0, some (command cfg.cherryPickBranch cfg.toBranch chosen), true,
              executedCommands cfg, none⟩

/-- The process exit status: an uncaught thrown error terminates the process
with a nonzero status. -/
def exitCodeOf : Except Str RunResult → Nat
  | .error _ => 1
  | .ok r => r.exitCode

/-! ## Concrete instances used by counterexamples and witnesses -/

/-- A subject of length 81 whose 79th character is a space. -/
def blankySubject : Str := List.replicate 78 'a' ++ [' ', 'b', 'c']

/-- A commit dated 2024-01-05 (UTC). -/
def janCommit : Commit := ⟨1704412800000, "h1".data, "f1".data, "alice".data, "january".data⟩

/-- A commit dated 2024-02-05 (UTC): a different calendar date with the same
day of month as `janCommit`. -/
def febCommit : Commit := ⟨1707091200000, "h2".data, "f2".data, "bob".data, "february".data⟩

/-- A default configuration without `--help`. -/
def cfg0 : Config := ⟨false, "dev".data, "master".data, none, none⟩

/-- A configuration with `--help`. -/
def cfgHelp : Config := ⟨true, "dev".data, "master".data, none, none⟩

/-- An arbitrary commit record used by witnesses. -/
def sampleCommit : Commit := ⟨1700000000000, "abc1234".data, "f1".data, "alice".data, "fix".data⟩

/-- A world with one cherry-pickable hash that matches no commit record. -/
def worldMissing : World := ⟨["f1".data], [], none⟩

/-- A world with no cherry-pickable hashes at all. -/
def worldEmpty : World := ⟨[], [], none⟩

/-- A world where the user aborts the prompt. -/
def worldAbort : World := ⟨["f1".data], [sampleCommit], none⟩

/-- A world where the user confirms an empty selection. -/
def worldNonePicked : World := ⟨["f1".data], [sampleCommit], some []⟩

/-- A commit authored by `"mark"`: its search key contains the letter `k`. -/
def kelvinCommit : Commit := ⟨1700000000000, "abc1234".data, "f2".data, "mark".data, "fix".data⟩

/-- A small choice list: a separator, a commit entry, a trailing separator. -/
def wChoices : List Choice :=
  [Choice.separator none, Choice.commit "f1".data "abc".data, Choice.separator none]

/-! # Helper lemmas -/

theorem dropWhile_eq_self_of_head? {p : Char → Bool} {l : Str}
    (h : ∀ c, l.head? = some c → p c = false) : l.dropWhile p = l := by
  cases l with
  | nil => rfl
  | cons a as => simp [List.dropWhile_cons, h a rfl]

theorem trimStr_eq_self {l : Str}
    (h1 : ∀ c, l.head? = some c → isWs c = false)
    (h2 : ∀ c, l.getLast? = some c → isWs c = false) : trimStr l = l := by
  unfold trimStr
  rw [dropWhile_eq_self_of_head? h1]
  rw [dropWhile_eq_self_of_head? (fun c hc => h2 c (by rwa [List.head?_reverse] at hc))]
  exact l.reverse_reverse

/-! # Claim C5 -/

/-- C5, counterexample: `truncate` trims the sliced prefix before appending
the ellipsis, so the subject of length 81 `blankySubject`, whose 79th
character is a space, is **not** mapped to its first 79 characters followed
by an ellipsis. -/
theorem truncate_81_counterexample :
    blankySubject.length = 81 ∧
    truncate blankySubject 80 ≠ blankySubject.take 79 ++ ['…'] := by
  constructor
  · decide
  · decide

/-- C5 (amended): truncation to 80 leaves a subject of length at most 80
unchanged, and maps a subject of length 81 to its first 79 characters,
whitespace-trimmed, followed by an ellipsis character; when the first and the
79th characters are not whitespace this equals exactly the first 79 characters
followed by the ellipsis. -/
theorem truncate_80_spec (text : Str) :
    (text.length ≤ 80 → truncate text 80 = text) ∧
    (text.length = 81 → truncate text 80 = trimStr (text.take 79) ++ ['…']) ∧
    (text.length = 81 → isWs (text.getD 0 ' ') = false → isWs (text.getD 78 ' ') = false →
      truncate text 80 = text.take 79 ++ ['…']) := by
  refine ⟨fun h => ?_, fun h => ?_, fun h h0 h78 => ?_⟩
  · simp [truncate, Nat.not_lt.mpr h]
  · simp [truncate, h]
  · have h2 : truncate text 80 = trimStr (text.take 79) ++ ['…'] := by simp [truncate, h]
    rw [h2]
    have htrim : trimStr (text.take 79) = text.take 79 := by
      apply trimStr_eq_self
      · intro c hc
        rw [List.head?_take, if_neg (by omega)] at hc
        rw [List.head?_eq_getElem?, List.getElem?_eq_getElem (by omega : 0 < text.length)] at hc
        have hgd : text.getD 0 ' ' = c := by
          rw [List.getD_eq_getElem text ' ' (by omega : 0 < text.length)]
          exact Option.some.inj hc
        rwa [hgd] at h0
      · intro c hc
        rw [List.getLast?_take, if_neg (by omega)] at hc
        rw [List.getElem?_eq_getElem (by omega : 79 - 1 < text.length)] at hc
        simp only [Option.or_some, Option.some.injEq] at hc
        have hgd : text.getD 78 ' ' = c := by
          rw [List.getD_eq_getElem text ' ' (by omega : 78 < text.length)]
          exact hc
        rwa [hgd] at h78
    rw [htrim]

/-- C5, witness for `truncate_80_spec`: a subject of 81 `'a'`s truncates to
79 `'a'`s plus the ellipsis. -/
theorem truncate_80_spec_witness :
    truncate (List.replicate 81 'a') 80 = List.replicate 79 'a' ++ ['…'] := by
  have h := (truncate_80_spec (List.replicate 81 'a')).2.2 (by decide) (by decide) (by decide)
  rw [h]
  decide

/-! # Claim C6 -/

/-- C6 (confirmed): the pull-request title keeps the length of the branch
name; the character at each position is a space exactly when the branch has a
hyphen there that is not its first hyphen (some strictly earlier position also
holds a hyphen), and is the branch's character otherwise; `"HRIS-123-CP-PROD"`
maps to `"HRIS-123 CP PROD"`, and a hyphen-free branch name is unchanged. -/
theorem prTitle_spec (branch : Str) :
    (generatePullRequestTitleFromBranch branch).length = branch.length ∧
    (∀ i, i < branch.length →
      (generatePullRequestTitleFromBranch branch).getD i ' ' =
        (if branch.getD i ' ' = '-' ∧ (∃ j, j < i ∧ branch.getD j ' ' = '-')
         then ' ' else branch.getD i ' ')) ∧
    generatePullRequestTitleFromBranch "HRIS-123-CP-PROD".data = "HRIS-123 CP PROD".data ∧
    ('-' ∉ branch → generatePullRequestTitleFromBranch branch = branch) := by
  have hlen : (generatePullRequestTitleFromBranch branch).length = branch.length := by
    simp [generatePullRequestTitleFromBranch]
  refine ⟨hlen, fun i hi => ?_, by decide, fun hnd => ?_⟩
  · rw [List.getD_eq_getElem (generatePullRequestTitleFromBranch branch) ' ' (by omega : i < (generatePullRequestTitleFromBranch branch).length)]
    rw [List.getD_eq_getElem branch ' ' hi]
    simp only [generatePullRequestTitleFromBranch, List.getElem_mapIdx]
    by_cases hdash : branch[i] = '-'
    · rw [if_pos hdash]
      by_cases hP : ∃ j, j < i ∧ branch.getD j ' ' = '-'
      · have hfind : ¬ (branch.findIdx? (fun c => decide (c = '-')) = some i) := by
          intro hfi
          rw [List.findIdx?_eq_some_iff_getElem] at hfi
          obtain ⟨hilt, hpi, hall⟩ := hfi
          obtain ⟨j, hj, hdj⟩ := hP
          rw [List.getD_eq_getElem branch ' ' (by omega : j < branch.length)] at hdj
          have hnp := hall j hj
          simp only [decide_eq_true_eq] at hnp
          exact hnp hdj
        rw [if_neg hfind,
          if_pos (⟨hdash, hP⟩ : branch[i] = '-' ∧ ∃ j, j < i ∧ branch.getD j ' ' = '-')]
      · have hfind : branch.findIdx? (fun c => decide (c = '-')) = some i := by
          rw [List.findIdx?_eq_some_iff_getElem]
          refine ⟨hi, by simpa using hdash, fun j hj => ?_⟩
          simp only [decide_eq_true_eq]
          intro hdj
          exact hP ⟨j, hj, by
            rw [List.getD_eq_getElem branch ' ' (by omega : j < branch.length)]; exact hdj⟩
        rw [if_pos hfind,
          if_neg (fun hc => hP hc.2 :
            ¬ (branch[i] = '-' ∧ ∃ j, j < i ∧ branch.getD j ' ' = '-')), hdash]
    · rw [if_neg hdash,
        if_neg (fun hc => hdash hc.1 :
          ¬ (branch[i] = '-' ∧ ∃ j, j < i ∧ branch.getD j ' ' = '-'))]
  · apply List.ext_getElem (by simpa using hlen)
    intro i hi1 hi2
    simp only [generatePullRequestTitleFromBranch, List.getElem_mapIdx]
    rw [if_neg]
    exact fun hd => hnd (hd ▸ List.getElem_mem hi2)

/-! # Claim C4 -/

theorem matchCommits_missing {fullHashes : List Str} {commits : List Commit}
    (h : ∃ h0 ∈ fullHashes, ∀ c ∈ commits, c.fullHash ≠ h0) :
    ∃ h0, h0 ∈ fullHashes ∧ (∀ c ∈ commits, c.fullHash ≠ h0) ∧
      matchCommits fullHashes commits = .error ("Missing commit: ".data ++ h0) := by
  induction fullHashes with
  | nil => obtain ⟨h0, hmem, _⟩ := h; cases hmem
  | cons hd rest ih =>
    cases hfind : commits.find? (fun c => c.fullHash == hd) with
    | none =>
      refine ⟨hd, List.mem_cons_self hd rest, ?_, ?_⟩
      · intro c hc
        have hne := List.find?_eq_none.mp hfind c hc
        simpa using hne
      · simp [matchCommits, hfind]
    | some c =>
      have hc1 : c.fullHash = hd := by
        have hp := List.find?_some hfind
        simpa using hp
      have hcmem : c ∈ commits := List.mem_of_find?_eq_some hfind
      obtain ⟨h0, hmem, hmiss⟩ := h
      have hne : h0 ≠ hd := fun he => (hmiss c hcmem) (by rw [hc1, he])
      have hrest : h0 ∈ rest := by
        rcases List.mem_cons.mp hmem with h | h
        · exact absurd h hne
        · exact h
      obtain ⟨h1, hm1, hmiss1, heq⟩ := ih ⟨h0, hrest, hmiss⟩
      exact ⟨h1, List.mem_cons_of_mem _ hm1, hmiss1, by simp [matchCommits, hfind, heq, Except.map]⟩

/-- C4 (confirmed): when some cherry-pickable full hash has no matching commit
record, the run throws `Missing commit: <hash>` naming a hash that indeed has
no record, the process exit status is nonzero, and no run result is produced —
so no selection, command generation or clipboard prompt ever happens and the
hash is not silently skipped. -/
theorem missing_commit_fatal (cfg : Config) (w : World) (hhelp : cfg.help = false)
    (h : ∃ h0 ∈ w.fromHashes, ∀ c ∈ w.commits, c.fullHash ≠ h0) :
    ∃ h0, h0 ∈ w.fromHashes ∧ (∀ c ∈ w.commits, c.fullHash ≠ h0) ∧
      run cfg w = .error ("Missing commit: ".data ++ h0) ∧
      exitCodeOf (run cfg w) = 1 ∧
      ∀ r : RunResult, run cfg w ≠ .ok r := by
  obtain ⟨h0, hmem, hmiss, heq⟩ := matchCommits_missing h
  refine ⟨h0, hmem, hmiss, ?_, ?_, ?_⟩ <;> simp [run, hhelp, heq, exitCodeOf]

/-- C4 witness: a concrete run whose only cherry-pickable hash has no record. -/
theorem missing_commit_fatal_witness :
    ∃ h0, h0 ∈ worldMissing.fromHashes ∧ (∀ c ∈ worldMissing.commits, c.fullHash ≠ h0) ∧
      run cfg0 worldMissing = .error ("Missing commit: ".data ++ h0) ∧
      exitCodeOf (run cfg0 worldMissing) = 1 ∧
      ∀ r : RunResult, run cfg0 worldMissing ≠ .ok r :=
  missing_commit_fatal cfg0 worldMissing rfl ⟨"f1".data, by decide, by simp [worldMissing]⟩

/-! # Claim C7 -/

/-- C7 (confirmed): each explicit early-exit path — help requested, empty
cherry-pickable candidate list, user abort of the prompt, and zero commits
finally selected — produces exit status 0, an informational message, no
generated command text and no clipboard prompt. -/
theorem early_exits_clean (cfg : Config) (w : World) :
    (cfg.help = true → run cfg w = .ok ⟨0, none, false, [], some helpMessage⟩) ∧
    (cfg.help = false → matchCommits w.fromHashes w.commits = .ok [] →
      run cfg w = .ok ⟨0, none, false, executedCommands cfg, some noCommitsMessage⟩) ∧
    (cfg.help = false → ∀ l, matchCommits w.fromHashes w.commits = .ok l → l ≠ [] →
      w.selection = none →
      run cfg w = .ok ⟨0, none, false, executedCommands cfg, some abortMessage⟩) ∧
    (cfg.help = false → ∀ l sel, matchCommits w.fromHashes w.commits = .ok l → l ≠ [] →
      w.selection = some sel →
      sel.filterMap (fun h => l.reverse.find? fun c => c.fullHash == h) = [] →
      run cfg w = .ok ⟨0, none, false, executedCommands cfg, some nonePickedMessage⟩) := by
  refine ⟨fun hh => by simp [run, hh], fun hh hm => by simp [run, hh, hm],
    fun hh l hm hl hsel => ?_, fun hh l sel hm hl hsel hfm => ?_⟩
  · simp [run, hh, hm, hsel, hl]
  · simp [run, hh, hm, hsel, hfm, hl, sortCommits]

/-- C7 witness: the four early-exit paths at concrete inputs. -/
theorem early_exits_clean_witness :
    run cfgHelp worldEmpty = .ok ⟨0, none, false, [], some helpMessage⟩ ∧
    run cfg0 worldEmpty = .ok ⟨0, none, false, executedCommands cfg0, some noCommitsMessage⟩ ∧
    run cfg0 worldAbort = .ok ⟨0, none, false, executedCommands cfg0, some abortMessage⟩ ∧
    run cfg0 worldNonePicked =
      .ok ⟨0, none, false, executedCommands cfg0, some nonePickedMessage⟩ :=
  ⟨(early_exits_clean cfgHelp worldEmpty).1 rfl,
   (early_exits_clean cfg0 worldEmpty).2.1 rfl rfl,
   (early_exits_clean cfg0 worldAbort).2.2.1 rfl [sampleCommit] rfl (by decide) rfl,
   (early_exits_clean cfg0 worldNonePicked).2.2.2 rfl [sampleCommit] [] rfl (by decide)
     rfl rfl⟩

/-! # Claim C1 -/

/-- C1 (confirmed): the cherry-pick command lines generated from a selection
are, as a multiset, exactly one `git cherry-pick <fullHash>` line per selected
commit; they appear in non-decreasing order of the commits' timestamps; and
any reordering of the selection produces the same multiset of lines. -/
theorem cherry_pick_lines_sorted (selected : List Commit) :
    ((sortCommits selected).map cherryPickLine).Perm (selected.map cherryPickLine) ∧
    ((sortCommits selected).map Commit.timestamp).Pairwise (· ≤ ·) ∧
    (∀ selected', selected'.Perm selected →
      ((sortCommits selected').map cherryPickLine).Perm
        ((sortCommits selected).map cherryPickLine)) := by
  refine ⟨(List.mergeSort_perm selected _).map _, ?_, fun s' hp => ?_⟩
  · have hs := @List.sorted_mergeSort Commit (fun a b => decide (a.timestamp ≤ b.timestamp))
      (fun a b c hab hbc => by
        simp only [decide_eq_true_eq] at hab hbc ⊢
        omega)
      (fun a b => by
        simp only [Bool.or_eq_true, decide_eq_true_eq]
        omega) selected
    exact hs.map Commit.timestamp (fun a b hab => by simpa using hab)
  · exact ((List.mergeSort_perm s' _).trans (hp.trans (List.mergeSort_perm selected _).symm)).map
      cherryPickLine

/-- C1 witness: a two-commit selection given in reversed chronological order. -/
theorem cherry_pick_lines_sorted_witness :
    ((sortCommits [febCommit, janCommit]).map cherryPickLine).Perm
      ([febCommit, janCommit].map cherryPickLine) ∧
    ((sortCommits [febCommit, janCommit]).map Commit.timestamp).Pairwise (· ≤ ·) ∧
    ((sortCommits [janCommit, febCommit]).map cherryPickLine).Perm
      ((sortCommits [febCommit, janCommit]).map cherryPickLine) :=
  ⟨(cherry_pick_lines_sorted [febCommit, janCommit]).1,
   (cherry_pick_lines_sorted [febCommit, janCommit]).2.1,
   (cherry_pick_lines_sorted [febCommit, janCommit]).2.2 [janCommit, febCommit] (by decide)⟩

/-- C6 witness: the index characterization at position 3 of `"a-b-c"` (a
second hyphen, mapped to a space) and the hyphen-free branch `"abc"`. -/
theorem prTitle_spec_witness :
    (generatePullRequestTitleFromBranch "a-b-c".data).getD 3 ' ' = ' ' ∧
    generatePullRequestTitleFromBranch "abc".data = "abc".data :=
  ⟨by
    have h := (prTitle_spec "a-b-c".data).2.1 3 (by decide)
    rw [h]
    rw [if_pos ⟨by decide, 1, by decide, by decide⟩],
   (prTitle_spec "abc".data).2.2.2 (by decide)⟩

/-! # Claim C2 -/

/-- C2, code evaluation at the failing input: `janCommit` (2024-01-05) and
`febCommit` (2024-02-05) lie on different calendar dates but share the day of
month 5, and the built choice list puts **no** date separator between them —
only the leading separator and the final bare separator appear. -/
theorem choices_miss_month_boundary :
    calendarDate janCommit.timestamp = (2024, 1, 5) ∧
    calendarDate febCommit.timestamp = (2024, 2, 5) ∧
    getDate janCommit.timestamp = getDate febCommit.timestamp ∧
    choicesOf [janCommit, febCommit] =
      [Choice.separator (some janCommit.timestamp),
       Choice.commit janCommit.fullHash (commitQuery janCommit),
       Choice.commit febCommit.fullHash (commitQuery febCommit),
       Choice.separator none] := by
  refine ⟨by decide, by decide, by decide, by decide⟩

/-! # Indexing helper lemmas for command / query strings -/

theorem trimRight_getElem? {l : Str} {k : Nat} {c : Char}
    (hk : l[k]? = some c) (hc : isWs c = false) :
    ((l.reverse.dropWhile isWs).reverse)[k]? = some c := by
  have hsplit : l = (l.reverse.dropWhile isWs).reverse ++ (l.reverse.takeWhile isWs).reverse := by
    calc l = l.reverse.reverse := (List.reverse_reverse l).symm
    _ = (l.reverse.takeWhile isWs ++ l.reverse.dropWhile isWs).reverse := by
        rw [List.takeWhile_append_dropWhile]
    _ = (l.reverse.dropWhile isWs).reverse ++ (l.reverse.takeWhile isWs).reverse := by
        rw [List.reverse_append]
  rcases Nat.lt_or_ge k ((l.reverse.dropWhile isWs).reverse).length with hlt | hge
  · rw [hsplit, List.getElem?_append_left hlt] at hk
    exact hk
  · exfalso
    rw [hsplit, List.getElem?_append_right hge] at hk
    have hmem : c ∈ (l.reverse.takeWhile isWs).reverse := by
      have := List.getElem?_mem hk
      exact this
    rw [List.mem_reverse] at hmem
    have := List.mem_takeWhile_imp hmem
    rw [this] at hc
    cases hc

theorem trimStr_getElem? {l : Str} {k : Nat} {c0 c : Char}
    (hhead : l.head? = some c0) (hc0 : isWs c0 = false)
    (hk : l[k]? = some c) (hc : isWs c = false) :
    (trimStr l)[k]? = some c := by
  have hdrop : l.dropWhile isWs = l :=
    dropWhile_eq_self_of_head? (fun d hd => by
      rw [hhead] at hd
      cases hd
      exact hc0)
  unfold trimStr
  rw [hdrop]
  exact trimRight_getElem? hk hc

theorem ne_of_getElem?_ne {l1 l2 : Str} {k : Nat} {a b : Char}
    (h1 : l1[k]? = some a) (h2 : l2[k]? = some b) (hne : a ≠ b) : l1 ≠ l2 := by
  intro he
  rw [he, h2] at h1
  exact hne (Option.some.inj h1).symm

theorem intercalate_cons_ex (sep x : Str) (xs : List Str) :
    ∃ r, List.intercalate sep (x :: xs) = x ++ r := by
  cases xs with
  | nil => exact ⟨[], by simp [List.intercalate]⟩
  | cons y ys =>
    exact ⟨sep ++ ((y :: ys).intersperse sep).flatten, by
      simp [List.intercalate, List.append_assoc]⟩

theorem intercalate_cons_cons (sep x y : Str) (zs : List Str) :
    List.intercalate sep (x :: y :: zs) = (x ++ sep) ++ List.intercalate sep (y :: zs) := by
  simp [List.intercalate, List.append_assoc]

theorem getLast?_intercalate (sep : Str) (xs : List Str) (last : Str)
    (h : xs.getLast? = some last) (hne : last ≠ []) :
    (List.intercalate sep xs).getLast? = last.getLast? := by
  induction xs with
  | nil => cases h
  | cons x ys ih =>
    cases ys with
    | nil =>
      simp only [List.getLast?_singleton, Option.some.injEq] at h
      subst h
      simp [List.intercalate]
    | cons y zs =>
      rw [List.getLast?_cons_cons] at h
      have htail := ih h
      rw [intercalate_cons_cons, List.getLast?_append, htail]
      cases hl : last.getLast? with
      | none => exact absurd (List.getLast?_eq_none_iff.mp hl) hne
      | some d => simp

/-- The characters at offsets 4 and 10 of the cherry comparison query. -/
theorem cherryQuery_chars (a b : Str) :
    (cherryQuery a b)[4]? = some 'c' ∧ (cherryQuery a b)[10]? = some ' ' := by
  unfold cherryQuery
  constructor <;>
    rw [List.append_assoc, List.getElem?_append_left (by decide)] <;> decide

/-- The character at offset 4 of the commit log query. -/
theorem logQuery_chars (a b : Str) : (logQuery a b)[4]? = some '-' := by
  unfold logQuery
  rw [List.append_assoc, List.append_assoc, List.getElem?_append_left (by decide)]
  decide

/-- Offsets into a generated command block starting with a cherry-pick line:
characters of the literal `"git cherry-pick "` survive the join and the trim. -/
theorem command_chars_none {k : Nat} {c : Char} (toBranch : Str) (cm : Commit)
    (cms : List Commit)
    (hlit : ("git cherry-pick ".data)[k]? = some c) (hc : isWs c = false) :
    (command none toBranch (cm :: cms))[k]? = some c := by
  have hlk : k < ("git cherry-pick ".data).length := by
    by_contra hk
    rw [List.getElem?_eq_none (Nat.le_of_not_lt hk)] at hlit
    cases hlit
  obtain ⟨r, hr⟩ := intercalate_cons_ex commandSep (cherryPickLine cm) (cms.map cherryPickLine)
  obtain ⟨rr, hj⟩ : ∃ rr, List.intercalate commandSep ((cm :: cms).map cherryPickLine) =
      "git cherry-pick ".data ++ rr := by
    refine ⟨cm.fullHash ++ r, ?_⟩
    rw [List.map_cons, hr, cherryPickLine, List.append_assoc]
  have hjk : (List.intercalate commandSep ((cm :: cms).map cherryPickLine))[k]? = some c := by
    rw [hj, List.getElem?_append_left hlk]
    exact hlit
  have hhead : (List.intercalate commandSep ((cm :: cms).map cherryPickLine)).head? =
      some 'g' := by
    rw [List.head?_eq_getElem?, hj, List.getElem?_append_left (by decide)]
    decide
  have hcmd : command none toBranch (cm :: cms) =
      trimStr (List.intercalate commandSep ((cm :: cms).map cherryPickLine)) := by
    simp [command, commandLines]
  rw [hcmd]
  exact trimStr_getElem? hhead (by decide) hjk hc

/-- Offsets into a generated command block starting with the branch-creation
line: characters of the literal `"git switch -c "` survive the join and trim. -/
theorem command_chars_some {k : Nat} {c : Char} (branch toBranch : Str)
    (commits : List Commit)
    (hlit : ("git switch -c ".data)[k]? = some c) (hc : isWs c = false) :
    (command (some branch) toBranch commits)[k]? = some c := by
  have hlk : k < ("git switch -c ".data).length := by
    by_contra hk
    rw [List.getElem?_eq_none (Nat.le_of_not_lt hk)] at hlit
    cases hlit
  have hlines : commandLines (some branch) toBranch commits =
      switchLine branch toBranch ::
        (commits.map cherryPickLine ++ [pushLine branch, prLine branch toBranch]) := by
    simp [commandLines]
  obtain ⟨r, hr⟩ := intercalate_cons_ex commandSep (switchLine branch toBranch)
    (commits.map cherryPickLine ++ [pushLine branch, prLine branch toBranch])
  obtain ⟨rr, hj⟩ : ∃ rr, List.intercalate commandSep
      (commandLines (some branch) toBranch commits) = "git switch -c ".data ++ rr := by
    refine ⟨branch ++ ((" origin/".data ++ toBranch) ++ r), ?_⟩
    rw [hlines, hr, switchLine]
    simp [List.append_assoc]
  have hjk : (List.intercalate commandSep
      (commandLines (some branch) toBranch commits))[k]? = some c := by
    rw [hj, List.getElem?_append_left hlk]
    exact hlit
  have hhead : (List.intercalate commandSep
      (commandLines (some branch) toBranch commits)).head? = some 'g' := by
    rw [List.head?_eq_getElem?, hj, List.getElem?_append_left (by decide)]
    decide
  rw [command]
  exact trimStr_getElem? hhead (by decide) hjk hc

/-! # Claim C3 -/

theorem executedCommands_shape (cfg : Config) :
    ∀ s ∈ executedCommands cfg,
      (∃ a b, s = cherryQuery a b) ∨ (∃ a b, s = logQuery a b) := by
  intro s hs
  cases hinc : cfg.includeBranch with
  | none =>
    simp [executedCommands, hinc] at hs
    rcases hs with h | h
    · exact Or.inl ⟨cfg.fromBranch, cfg.toBranch, h⟩
    · exact Or.inr ⟨cfg.fromBranch, cfg.toBranch, h⟩
  | some ib =>
    simp [executedCommands, hinc] at hs
    rcases hs with h | h | h
    · exact Or.inl ⟨cfg.fromBranch, cfg.toBranch, h⟩
    · exact Or.inl ⟨cfg.fromBranch, ib, h⟩
    · exact Or.inr ⟨cfg.fromBranch, cfg.toBranch, h⟩

/-- C3 (confirmed): every string passed to the shell executor is one of the
two read-only queries (the cherry comparison or the commit log), and the
generated command block is never among the executed strings — the program
performs no repository mutation. -/
theorem generated_command_never_executed :
    (∀ cfg : Config, ∀ s ∈ executedCommands cfg,
      (∃ a b, s = cherryQuery a b) ∨ (∃ a b, s = logQuery a b)) ∧
    (∀ (cfg : Config) (branch? : Option Str) (toBranch : Str) (commits : List Commit),
      commits ≠ [] → command branch? toBranch commits ∉ executedCommands cfg) := by
  refine ⟨executedCommands_shape, ?_⟩
  intro cfg branch? toBranch commits hne hmem
  obtain ⟨cm, cms, rfl⟩ : ∃ cm cms, commits = cm :: cms := by
    cases commits with
    | nil => exact absurd rfl hne
    | cons cm cms => exact ⟨cm, cms, rfl⟩
  rcases executedCommands_shape cfg _ hmem with ⟨a, b, hab⟩ | ⟨a, b, hab⟩
  · cases branch? with
    | none =>
      exact ne_of_getElem?_ne
        (command_chars_none toBranch cm cms
          (by decide : ("git cherry-pick ".data)[10]? = some '-') (by decide))
        (cherryQuery_chars a b).2 (by decide) hab
    | some br =>
      exact ne_of_getElem?_ne
        (command_chars_some br toBranch (cm :: cms)
          (by decide : ("git switch -c ".data)[4]? = some 's') (by decide))
        (cherryQuery_chars a b).1 (by decide) hab
  · cases branch? with
    | none =>
      exact ne_of_getElem?_ne
        (command_chars_none toBranch cm cms
          (by decide : ("git cherry-pick ".data)[4]? = some 'c') (by decide))
        (logQuery_chars a b) (by decide) hab
    | some br =>
      exact ne_of_getElem?_ne
        (command_chars_some br toBranch (cm :: cms)
          (by decide : ("git switch -c ".data)[4]? = some 's') (by decide))
        (logQuery_chars a b) (by decide) hab

/-- C3 witness: a concrete generated block is absent from the concrete
executed-query list. -/
theorem generated_command_never_executed_witness :
    command none "master".data [sampleCommit] ∉ executedCommands cfg0 :=
  generated_command_never_executed.2 cfg0 none "master".data [sampleCommit] (by decide)

/-! # Claim C8 -/

theorem getLast?_prLine (branch toBranch : Str) :
    (prLine branch toBranch).getLast? = some 'w' := by
  unfold prLine
  rw [List.getLast?_append, List.getLast?_append]
  rfl

theorem command_trim_id_none (toBranch : Str) (cm : Commit) (cms : List Commit)
    (hhash : ∀ c ∈ cm :: cms, c.fullHash ≠ [] ∧ ∀ ch ∈ c.fullHash, isWs ch = false) :
    command none toBranch (cm :: cms) =
      List.intercalate commandSep ((cm :: cms).map cherryPickLine) := by
  have hcmd : command none toBranch (cm :: cms) =
      trimStr (List.intercalate commandSep ((cm :: cms).map cherryPickLine)) := by
    simp [command, commandLines]
  rw [hcmd]
  apply trimStr_eq_self
  · intro c hc
    obtain ⟨r, hr⟩ := intercalate_cons_ex commandSep (cherryPickLine cm)
      (cms.map cherryPickLine)
    rw [List.map_cons, hr, cherryPickLine, List.append_assoc, List.head?_append] at hc
    have : c = 'g' := by
      simp only [show ("git cherry-pick ".data).head? = some 'g' from rfl] at hc
      exact (Option.some.inj hc).symm
    rw [this]
    decide
  · obtain ⟨clast, hclast⟩ : ∃ cl, (cm :: cms).getLast? = some cl := by
      cases h : (cm :: cms).getLast? with
      | none => exact absurd (List.getLast?_eq_none_iff.mp h) (by simp)
      | some cl => exact ⟨cl, rfl⟩
    have hclmem : clast ∈ cm :: cms := List.mem_of_getLast?_eq_some hclast
    obtain ⟨hn0, hnw⟩ := hhash clast hclmem
    obtain ⟨d, hd⟩ : ∃ d, clast.fullHash.getLast? = some d := by
      cases h : clast.fullHash.getLast? with
      | none => exact absurd (List.getLast?_eq_none_iff.mp h) hn0
      | some d => exact ⟨d, rfl⟩
    have hdmem : d ∈ clast.fullHash := List.mem_of_getLast?_eq_some hd
    have hlines : ((cm :: cms).map cherryPickLine).getLast? =
        some (cherryPickLine clast) := by
      rw [List.getLast?_map, hclast]
      rfl
    have hpl : (cherryPickLine clast).getLast? = some d := by
      rw [cherryPickLine, List.getLast?_append, hd]
      rfl
    intro c hc
    rw [getLast?_intercalate commandSep _ _ hlines
      (by simp [cherryPickLine]), hpl] at hc
    cases hc
    exact hnw d hdmem

theorem command_trim_id_some (branch toBranch : Str) (cm : Commit) (cms : List Commit) :
    command (some branch) toBranch (cm :: cms) =
      List.intercalate commandSep
        (switchLine branch toBranch ::
          ((cm :: cms).map cherryPickLine ++
            [pushLine branch, prLine branch toBranch])) := by
  have hlines : commandLines (some branch) toBranch (cm :: cms) =
      switchLine branch toBranch ::
        ((cm :: cms).map cherryPickLine ++ [pushLine branch, prLine branch toBranch]) := by
    simp [commandLines]
  rw [command, hlines]
  apply trimStr_eq_self
  · intro c hc
    obtain ⟨r, hr⟩ := intercalate_cons_ex commandSep (switchLine branch toBranch)
      ((cm :: cms).map cherryPickLine ++ [pushLine branch, prLine branch toBranch])
    rw [hr, switchLine, List.append_assoc, List.append_assoc, List.head?_append] at hc
    have : c = 'g' := by
      simp only [show ("git switch -c ".data).head? = some 'g' from rfl] at hc
      exact (Option.some.inj hc).symm
    rw [this]
    decide
  · have hlast : (switchLine branch toBranch ::
        ((cm :: cms).map cherryPickLine ++
          [pushLine branch, prLine branch toBranch])).getLast? =
        some (prLine branch toBranch) := by
      rw [show switchLine branch toBranch ::
          ((cm :: cms).map cherryPickLine ++ [pushLine branch, prLine branch toBranch]) =
          [switchLine branch toBranch] ++
          ((cm :: cms).map cherryPickLine ++ [pushLine branch, prLine branch toBranch])
        from rfl]
      rw [List.getLast?_append, List.getLast?_append]
      rfl
    intro c hc
    rw [getLast?_intercalate commandSep _ _ hlast (by simp [prLine]),
      getLast?_prLine] at hc
    cases hc
    decide

/-- C8 (confirmed): the generated output is the `' && \\\n'`-join of: a
branch-creation-and-switch line first if and only if a cherry-pick branch was
supplied, then one cherry-pick line per commit, then a push line and a
PR-creation line if and only if a branch was supplied; with no branch the
chain consists solely of the cherry-pick lines.  (The stated hash hypotheses
rule out degenerate whitespace hashes, which real git hashes never are.) -/
theorem command_block_structure (branch toBranch : Str) (commits : List Commit)
    (hne : commits ≠ [])
    (hhash : ∀ c ∈ commits, c.fullHash ≠ [] ∧ ∀ ch ∈ c.fullHash, isWs ch = false) :
    command none toBranch commits =
      List.intercalate commandSep (commits.map cherryPickLine) ∧
    command (some branch) toBranch commits =
      List.intercalate commandSep
        (switchLine branch toBranch ::
          (commits.map cherryPickLine ++ [pushLine branch, prLine branch toBranch])) := by
  obtain ⟨cm, cms, rfl⟩ := List.exists_cons_of_ne_nil hne
  exact ⟨command_trim_id_none toBranch cm cms hhash,
    command_trim_id_some branch toBranch cm cms⟩

/-- C8 witness: the command block of one concrete commit, with and without a
cherry-pick branch. -/
theorem command_block_structure_witness :
    command none "master".data [sampleCommit] =
      List.intercalate commandSep ([sampleCommit].map cherryPickLine) ∧
    command (some "HRIS-1-CP".data) "master".data [sampleCommit] =
      List.intercalate commandSep
        (switchLine "HRIS-1-CP".data "master".data ::
          ([sampleCommit].map cherryPickLine ++
            [pushLine "HRIS-1-CP".data, prLine "HRIS-1-CP".data "master".data])) :=
  command_block_structure "HRIS-1-CP".data "master".data [sampleCommit]
    (by decide) (by decide)

/-! # Claim C9 -/

theorem suggestDrop_go (L : List Choice) :
    ∀ (l : List Choice) (n : Nat), (∀ k, l[k]? = L[n + k]?) →
      ((l.enumFrom n).filter (fun p => keepNext p.2 L[p.1 + 1]?)).map Prod.snd =
        dropSepsRec l := by
  intro l
  induction l with
  | nil => intro n _; rfl
  | cons c rest ih =>
    intro n hk
    have hrest : ∀ k, rest[k]? = L[(n + 1) + k]? := by
      intro k
      have h2 := hk (k + 1)
      rw [List.getElem?_cons_succ] at h2
      rw [h2]
      congr 1
      omega
    have hnext : L[n + 1]? = rest.head? := by
      have h1 := hk 1
      rw [List.getElem?_cons_succ] at h1
      rw [← h1]
      exact (List.head?_eq_getElem? rest).symm
    rw [List.enumFrom_cons]
    cases c with
    | commit nm q =>
      rw [List.filter_cons_of_pos (by rfl), List.map_cons, ih (n + 1) hrest]
      rfl
    | separator d =>
      cases rest with
      | nil =>
        rw [List.filter_cons_of_neg (by rw [hnext]; simp [keepNext])]
        rfl
      | cons c2 rest2 =>
        cases c2 with
        | commit nm2 q2 =>
          rw [List.filter_cons_of_pos (by rw [hnext]; rfl), List.map_cons,
            ih (n + 1) hrest]
          rfl
        | separator d2 =>
          rw [List.filter_cons_of_neg (by rw [hnext]; simp [keepNext, Choice.isSep]),
            ih (n + 1) hrest]
          rfl

theorem suggestDrop_eq_dropSepsRec (l : List Choice) : suggestDrop l = dropSepsRec l :=
  suggestDrop_go l l 0 (fun k => by simp)

theorem dropSepsRec_filter_commits (l : List Choice) :
    (dropSepsRec l).filter (fun c => !c.isSep) = l.filter (fun c => !c.isSep) := by
  induction l with
  | nil => rfl
  | cons c rest ih =>
    cases c with
    | commit nm q =>
      rw [show dropSepsRec (.commit nm q :: rest) = .commit nm q :: dropSepsRec rest
        from rfl]
      simp only [List.filter_cons]
      rw [ih]
    | separator d =>
      cases rest with
      | nil => rfl
      | cons c2 rest2 =>
        cases c2 with
        | commit nm2 q2 =>
          rw [show dropSepsRec (.separator d :: .commit nm2 q2 :: rest2) =
              .separator d :: dropSepsRec (.commit nm2 q2 :: rest2) from rfl]
          simp only [List.filter_cons, Choice.isSep, Bool.not_true, Bool.false_eq_true,
            if_false]
          exact ih
        | separator d2 =>
          rw [show dropSepsRec (.separator d :: .separator d2 :: rest2) =
              dropSepsRec (.separator d2 :: rest2) from rfl, ih]
          simp only [List.filter_cons, Choice.isSep, Bool.not_true, Bool.false_eq_true,
            if_false]

theorem dropSepsRec_sep_followed :
    ∀ (l : List Choice) (i : Nat) (s : Choice), (dropSepsRec l)[i]? = some s →
      s.isSep = true →
      ∃ cnext, (dropSepsRec l)[i + 1]? = some cnext ∧ cnext.isSep = false := by
  intro l
  induction l with
  | nil => intro i s hs _; simp [dropSepsRec] at hs
  | cons c rest ih =>
    intro i s hs hsep
    cases c with
    | commit nm q =>
      rw [show dropSepsRec (.commit nm q :: rest) = .commit nm q :: dropSepsRec rest
        from rfl] at hs ⊢
      cases i with
      | zero =>
        rw [List.getElem?_cons_zero] at hs
        cases hs
        simp [Choice.isSep] at hsep
      | succ j =>
        rw [List.getElem?_cons_succ] at hs
        obtain ⟨cnext, h1, h2⟩ := ih j s hs hsep
        exact ⟨cnext, by rw [List.getElem?_cons_succ]; exact h1, h2⟩
    | separator d =>
      cases rest with
      | nil =>
        rw [show dropSepsRec [.separator d] = [] from rfl] at hs
        simp at hs
      | cons c2 rest2 =>
        cases c2 with
        | separator d2 =>
          rw [show dropSepsRec (.separator d :: .separator d2 :: rest2) =
              dropSepsRec (.separator d2 :: rest2) from rfl] at hs ⊢
          exact ih i s hs hsep
        | commit nm2 q2 =>
          rw [show dropSepsRec (.separator d :: .commit nm2 q2 :: rest2) =
              .separator d :: dropSepsRec (.commit nm2 q2 :: rest2) from rfl] at hs ⊢
          cases i with
          | zero =>
            refine ⟨.commit nm2 q2, ?_, by simp [Choice.isSep]⟩
            rw [List.getElem?_cons_succ,
              show dropSepsRec (.commit nm2 q2 :: rest2) =
                .commit nm2 q2 :: dropSepsRec rest2 from rfl,
              List.getElem?_cons_zero]
          | succ j =>
            rw [List.getElem?_cons_succ] at hs
            obtain ⟨cnext, h1, h2⟩ := ih j s hs hsep
            exact ⟨cnext, by rw [List.getElem?_cons_succ]; exact h1, h2⟩

theorem dropSepsRec_all_sep :
    ∀ l : List Choice, (∀ x ∈ l, x.isSep = true) → dropSepsRec l = [] := by
  intro l
  induction l with
  | nil => intro _; rfl
  | cons c rest ih =>
    intro h
    cases c with
    | commit nm q =>
      have hc := h _ (List.mem_cons_self _ _)
      simp [Choice.isSep] at hc
    | separator d =>
      cases rest with
      | nil => rfl
      | cons c2 rest2 =>
        cases c2 with
        | separator d2 =>
          rw [show dropSepsRec (.separator d :: .separator d2 :: rest2) =
              dropSepsRec (.separator d2 :: rest2) from rfl]
          exact ih (fun x hx => h x (List.mem_cons_of_mem _ hx))
        | commit nm2 q2 =>
          have hc := h _ (List.mem_cons_of_mem _ (List.mem_cons_self _ _))
          simp [Choice.isSep] at hc

/-- C9 (confirmed): in the filtered suggestion list, the commit entries are
exactly those whose search key contains the lowercased typed text (in order,
with multiplicity), and every separator that is kept is immediately followed
by a kept commit entry — hence no duplicate adjacent separators and no
trailing separator. -/
theorem suggest_spec (typed : Str) (choices : List Choice) :
    ((suggest typed choices).filter (fun c => !c.isSep) =
      choices.filter (fun c => !c.isSep && choiceMatches typed c)) ∧
    (∀ i s, (suggest typed choices)[i]? = some s → s.isSep = true →
      ∃ cnext, (suggest typed choices)[i + 1]? = some cnext ∧ cnext.isSep = false) := by
  have he : suggest typed choices = dropSepsRec (suggestMatch typed choices) := by
    rw [suggest, suggestDrop_eq_dropSepsRec]
  constructor
  · rw [he, dropSepsRec_filter_commits, suggestMatch, List.filter_filter]
  · rw [he]
    exact dropSepsRec_sep_followed _

/-- C9 witness: on a concrete list (separator, matching commit, trailing
separator) with an empty query, the kept separator is followed by the commit
and the trailing separator is dropped. -/
theorem suggest_spec_witness :
    ((suggest [] wChoices).filter (fun c => !c.isSep) =
      wChoices.filter (fun c => !c.isSep && choiceMatches [] c)) ∧
    ∃ cnext, (suggest [] wChoices)[0 + 1]? = some cnext ∧ cnext.isSep = false :=
  ⟨(suggest_spec [] wChoices).1,
   (suggest_spec [] wChoices).2 0 (Choice.separator none) (by decide) (by decide)⟩

/-! # Claim C10 -/

theorem isWordChar_toLowerCharStr {c : Char} (h : isWordChar c = true) :
    ∀ d ∈ toLowerCharStr c, isWordChar d = true := by
  intro d hd
  unfold toLowerCharStr at hd
  split at hd
  · next hAZ =>
    rw [List.mem_singleton] at hd
    subst hd
    simp only [Bool.and_eq_true, decide_eq_true_eq] at hAZ
    obtain ⟨h1, h2⟩ := hAZ
    have hlo : 65 ≤ c.toNat := by
      rw [Char.le_def] at h1
      exact h1
    have hhi : c.toNat ≤ 90 := by
      rw [Char.le_def] at h2
      exact h2
    interval_cases hn : c.toNat <;> decide
  · split at hd
    · next hk =>
      subst hk
      exact absurd h (by decide)
    · split at hd
      · next hi =>
        subst hi
        exact absurd h (by decide)
      · rw [List.mem_singleton] at hd
        subst hd
        exact h

theorem choicesOf_shape (commits : List Commit) :
    ∀ x ∈ choicesOf commits, x.isSep = true ∨
      ∃ cmt, x = Choice.commit cmt.fullHash (commitQuery cmt) := by
  intro x hx
  rw [choicesOf, List.mem_append] at hx
  rcases hx with hx | hx
  · rw [List.mem_flatMap] at hx
    obtain ⟨p, _, hx⟩ := hx
    rw [List.mem_append] at hx
    rcases hx with hx | hx
    · left
      cases hm : (if p.1 = 0 then none else commits[p.1 - 1]?) with
      | none =>
        rw [hm] at hx
        simp at hx
        rw [hx]
        rfl
      | some prev =>
        rw [hm] at hx
        simp at hx
        obtain ⟨_, hx⟩ := hx
        rw [hx]
        rfl
    · right
      simp at hx
      exact ⟨p.2, hx⟩
  · left
    simp at hx
    rw [hx]
    rfl

theorem suggestMatch_nonword_all_sep (typed : Str) (commits : List Commit)
    (h : ∃ ch ∈ typed, isWordChar ch = false ∧ toLowerCharStr ch = [ch]) :
    ∀ x ∈ suggestMatch typed (choicesOf commits), x.isSep = true := by
  intro x hx
  rw [suggestMatch, List.mem_filter] at hx
  obtain ⟨hmem, hmatch⟩ := hx
  rcases choicesOf_shape commits x hmem with hsep | ⟨cmt, rfl⟩
  · exact hsep
  · exfalso
    obtain ⟨ch, hch, hnw, hid⟩ := h
    have hchl : ch ∈ toLowerStr typed := by
      rw [toLowerStr, List.mem_flatMap]
      exact ⟨ch, hch, by rw [hid]; exact List.mem_singleton_self ch⟩
    have hkey : ∀ d ∈ commitQuery cmt, isWordChar d = true := by
      intro d hd
      rw [commitQuery, toLowerStr, List.mem_flatMap] at hd
      obtain ⟨d0, hd0, hdin⟩ := hd
      exact isWordChar_toLowerCharStr (List.of_mem_filter hd0) d hdin
    have hm2 : includesSub (commitQuery cmt) (toLowerStr typed) = true := hmatch
    rw [includesSub, List.any_eq_true] at hm2
    obtain ⟨t, ht, hpre⟩ := hm2
    rw [ List.isPrefixOf_iff_prefix] at hpre
    rw [List.mem_tails] at ht
    have hcht : ch ∈ t := hpre.subset hchl
    have hchq : ch ∈ commitQuery cmt := ht.subset hcht
    rw [hkey ch hchq] at hnw
    cases hnw

/-- C10, counterexample: the typed string consisting of the single non-word
character U+212A (KELVIN SIGN) lowercases to `"k"`, which the search key of a
commit authored by `"mark"` contains — so the filtered list keeps that commit
entry (and the separator before it), falsifying the original claim that a
typed string with a non-word character never matches. -/
theorem nonword_typed_matches_counterexample :
    isWordChar '\u212A' = false ∧
    suggest ['\u212A'] (choicesOf [kelvinCommit]) =
      [Choice.separator (some kelvinCommit.timestamp),
       Choice.commit kelvinCommit.fullHash (commitQuery kelvinCommit)] := by
  constructor
  · decide
  · decide

/-- C10 (amended): if the typed filter string contains a non-word character
that lowercasing leaves unchanged — such as any ASCII space or punctuation
character — then no commit entry of the built choice list matches (every
search key consists of word characters only), so the suggestion list
collapses to the empty list — not even a separator remains.  The restriction
is forced by the rare code points whose Unicode lowercase is a word
character, such as U+212A (KELVIN SIGN) → `k`; those can still match. -/
theorem nonword_typed_no_matches (typed : Str) (commits : List Commit)
    (h : ∃ ch ∈ typed, isWordChar ch = false ∧ toLowerCharStr ch = [ch]) :
    suggest typed (choicesOf commits) = [] := by
  rw [suggest, suggestDrop_eq_dropSepsRec]
  exact dropSepsRec_all_sep _ (suggestMatch_nonword_all_sep typed commits h)

/-- C10 witness: typing `"a b"` (a space is a non-word character unchanged by
lowercasing) empties the suggestion list built from a concrete commit. -/
theorem nonword_typed_no_matches_witness :
    suggest "a b".data (choicesOf [sampleCommit]) = [] :=
  nonword_typed_no_matches "a b".data [sampleCommit]
    ⟨' ', by decide, by decide, by decide⟩

end CherryQuick
